import Mathlib

/-!
Verification of the per-line highlight composer (`src/highlight.rs`) and the
viewport / renderer logic (`src/widget.rs`) of the `tui-textarea` fork.

Embedding conventions:
* Rust `&str` / `String` values are `List Char`; byte offsets are measured with
  `Char.utf8Size`, matching Rust's UTF-8 byte indexing.
* `u16` / `u64` arithmetic is carried out on `Nat` with explicit `% 2 ^ w`
  reductions where the machine width matters (release-mode wrapping
  semantics); `usize` subtraction that would panic on underflow is either
  guarded by an `Option` result or hypothesised away in the theorems.
* `ratatui` `Style` is an opaque value type with equality; we model it as a
  bare `Nat` tag.  `Span::patch_style` with a fully-specified style amounts to
  replacing the span's style, which is how we model the style patch.
* `crate::util::num_digits` and `crate::util::spaces` are not part of the
  provided sources; they are modelled from the spec (see their doc comments).
-/

/-- Styles are opaque attribute bundles with copy/equality semantics only
(spec section 2); we model them as bare tags. -/
abbrev Style := Nat

/-- Model of `Style::default()`. -/
def Style.default : Style := 0

/-- Modelled from the spec: `crate::util::spaces`, a run of `n` space
characters (missing from the provided sources). -/
def spaces (n : Nat) : List Char := List.replicate n ' '

/-- Decimal digit characters of a natural number. -/
def natChars (n : Nat) : List Char := (Nat.repr n).toList

/-- Modelled from the spec: `crate::util::num_digits`, the digit count of a
line number (missing from the provided sources). -/
def numDigits (n : Nat) : Nat := (natChars n).length

/-! ### Viewport (`widget.rs`, lines 25-84)

A `Viewport` is an `AtomicU64` packing four `u16` fields
`(width, height, row, col)`; we model the packed word as a `Nat` and each
operation as a pure function of that word. -/

/-- Packed viewport word. -/
abbrev Viewport := Nat

/-- Model of `Viewport::store`: packs four `u16` values into one `u64`
(`widget.rs` lines 63-68). -/
def Viewport.store (row col width height : Nat) : Viewport :=
  (width <<< 48) ||| (height <<< 32) ||| (row <<< 16) ||| col

/-- Model of `Viewport::scroll_top` (`widget.rs` lines 36-39): the
`as u16` casts become `% 2 ^ 16`. -/
def Viewport.scroll_top (u : Viewport) : Nat × Nat :=
  ((u >>> 16) % 65536, u % 65536)

/-- Model of `Viewport::rect` (`widget.rs` lines 41-48). -/
def Viewport.rect (u : Viewport) : Nat × Nat × Nat × Nat :=
  ((u >>> 16) % 65536, u % 65536, (u >>> 48) % 65536, (u >>> 32) % 65536)

/-- Model of the inner `apply_scroll` helper of `Viewport::scroll`
(`widget.rs` lines 71-77): `u16::saturating_add` / `u16::saturating_sub`
with an `i16` delta.  `(-delta) as u16` equals `delta.natAbs` for every
`i16` delta, including `i16::MIN` (whose wrapping negation reads back as
`32768`). -/
def apply_scroll (pos : Nat) (delta : Int) : Nat :=
  if 0 ≤ delta then min (pos + delta.toNat) 65535 else pos - delta.natAbs

/-- Model of `Viewport::scroll` (`widget.rs` lines 70-83): recomputes the two
low fields and keeps the high 32 bits via the `0xffff_ffff_0000_0000` mask. -/
def Viewport.scroll (u : Viewport) (rows cols : Int) : Viewport :=
  let row := apply_scroll ((u >>> 16) % 65536) rows
  let col := apply_scroll (u % 65536) cols
  (u &&& 0xffffffff00000000) ||| (row <<< 16) ||| col

/-- Model of the `next_scroll_top` helper (`widget.rs` lines 295-303) with
u16 wrapping (release-mode) arithmetic: `prev_top + length` and
`cursor + 1 - length` reduce modulo `2 ^ 16`. -/
def next_scroll_top (prev_top cursor length : Nat) : Nat :=
  if cursor < prev_top then cursor
  else if (prev_top + length) % 65536 ≤ cursor then
    ((cursor + 1) % 65536 + (65536 - length)) % 65536
  else prev_top

/-! ### Bit-level facts used for the viewport theorems -/

theorem testBit_false_of_lt_65536 {x : Nat} (i : Nat) (hx : x < 65536)
    (hi : 16 ≤ i) : x.testBit i = false := by
  apply Nat.testBit_lt_two_pow
  calc x < 65536 := hx
    _ = 2 ^ 16 := by norm_num
    _ ≤ 2 ^ i := Nat.pow_le_pow_right (by omega) hi

theorem scrollMask_eq : (0xffffffff00000000 : Nat) = (2 ^ 32 - 1) <<< 32 := by
  norm_num [Nat.shiftLeft_eq]

theorem testBit_scrollMask (i : Nat) :
    (0xffffffff00000000 : Nat).testBit i = decide (32 ≤ i ∧ i < 64) := by
  rw [scrollMask_eq]
  simp only [Nat.testBit_shiftLeft, Nat.testBit_two_pow_sub_one]
  by_cases h32 : 32 ≤ i
  · by_cases h64 : i < 64
    · have hlt : i - 32 < 32 := by omega
      simp [ge_iff_le, h32, h64, hlt]
    · have hlt : ¬ (i - 32 < 32) := by omega
      simp [ge_iff_le, h32, h64, hlt]
  · have hno : ¬ (32 ≤ i ∧ i < 64) := by omega
    simp [ge_iff_le, h32, hno]

/-- Every field of a freshly stored viewport word reads back exactly;
this is the bit-level core behind `Viewport::rect` and
`Viewport::scroll_top`. -/
theorem rect_store (row col width height : Nat) (hr : row < 65536)
    (hc : col < 65536) (hw : width < 65536) (hh : height < 65536) :
    Viewport.rect (Viewport.store row col width height) =
      (row, col, width, height) := by
  have h65536 : (65536 : Nat) = 2 ^ 16 := by norm_num
  unfold Viewport.rect Viewport.store
  simp only [Prod.mk.injEq]
  refine ⟨?_, ?_, ?_, ?_⟩
  · -- row field: bits 16..31
    apply Nat.eq_of_testBit_eq
    intro i
    simp only [h65536, Nat.testBit_mod_two_pow, Nat.testBit_shiftRight,
      Nat.testBit_or, Nat.testBit_shiftLeft]
    by_cases h16 : i < 16
    · have e1 : ¬ (16 + i ≥ 48) := by omega
      have e2 : ¬ (16 + i ≥ 32) := by omega
      have e3 : 16 + i ≥ 16 := by omega
      have e4 : 16 + i - 16 = i := by omega
      simp [h16, e1, e2, e3, e4, testBit_false_of_lt_65536 (16 + i) hc (by omega)]
    · simp [h16, (testBit_false_of_lt_65536 i hr (by omega) : row.testBit i = false)]
  · -- col field: bits 0..15
    apply Nat.eq_of_testBit_eq
    intro i
    simp only [h65536, Nat.testBit_mod_two_pow, Nat.testBit_or,
      Nat.testBit_shiftLeft]
    by_cases h16 : i < 16
    · have e1 : ¬ (i ≥ 48) := by omega
      have e2 : ¬ (i ≥ 32) := by omega
      have e3 : ¬ (i ≥ 16) := by omega
      simp [h16, e1, e2, e3]
    · simp [h16, (testBit_false_of_lt_65536 i hc (by omega) : col.testBit i = false)]
  · -- width field: bits 48..63
    apply Nat.eq_of_testBit_eq
    intro i
    simp only [h65536, Nat.testBit_mod_two_pow, Nat.testBit_shiftRight,
      Nat.testBit_or, Nat.testBit_shiftLeft]
    by_cases h16 : i < 16
    · have e1 : 48 + i ≥ 48 := by omega
      have e2 : 48 + i - 48 = i := by omega
      have e3 : 48 + i ≥ 32 := by omega
      have e4 : height.testBit (48 + i - 32) = false :=
        testBit_false_of_lt_65536 _ hh (by omega)
      have e5 : 48 + i ≥ 16 := by omega
      have e6 : row.testBit (48 + i - 16) = false :=
        testBit_false_of_lt_65536 _ hr (by omega)
      have e7 : col.testBit (48 + i) = false :=
        testBit_false_of_lt_65536 _ hc (by omega)
      simp [h16, e1, e2, e3, e4, e5, e6, e7]
    · simp [h16, (testBit_false_of_lt_65536 i hw (by omega) : width.testBit i = false)]
  · -- height field: bits 32..47
    apply Nat.eq_of_testBit_eq
    intro i
    simp only [h65536, Nat.testBit_mod_two_pow, Nat.testBit_shiftRight,
      Nat.testBit_or, Nat.testBit_shiftLeft]
    by_cases h16 : i < 16
    · have e1 : ¬ (32 + i ≥ 48) := by omega
      have e2 : 32 + i ≥ 32 := by omega
      have e3 : 32 + i - 32 = i := by omega
      have e4 : 32 + i ≥ 16 := by omega
      have e5 : row.testBit (32 + i - 16) = false :=
        testBit_false_of_lt_65536 _ hr (by omega)
      have e6 : col.testBit (32 + i) = false :=
        testBit_false_of_lt_65536 _ hc (by omega)
      simp [h16, e1, e2, e3, e4, e5, e6]
    · simp [h16, (testBit_false_of_lt_65536 i hh (by omega) : height.testBit i = false)]

theorem apply_scroll_eq (pos : Nat) (d : Int) (h : pos < 65536) :
    apply_scroll pos d = min ((pos : Int) + d).toNat 65535 := by
  unfold apply_scroll
  split <;> omega

theorem apply_scroll_lt (pos : Nat) (d : Int) (h : pos < 65536) :
    apply_scroll pos d < 65536 := by
  unfold apply_scroll
  split <;> omega

/-- Decoding a word rebuilt from the high-bits mask together with fresh low
fields: the bit-level core of `Viewport::scroll`. -/
theorem rect_mask_or (u r' c' : Nat) (hr' : r' < 65536) (hc' : c' < 65536) :
    Viewport.rect ((u &&& 0xffffffff00000000) ||| (r' <<< 16) ||| c') =
      (r', c', (u >>> 48) % 65536, (u >>> 32) % 65536) := by
  have h65536 : (65536 : Nat) = 2 ^ 16 := by norm_num
  unfold Viewport.rect
  simp only [Prod.mk.injEq]
  refine ⟨?_, ?_, ?_, ?_⟩
  · -- new row field: bits 16..31 come from the recomputed row
    apply Nat.eq_of_testBit_eq
    intro i
    simp only [h65536, Nat.testBit_mod_two_pow, Nat.testBit_shiftRight,
      Nat.testBit_or, Nat.testBit_and, testBit_scrollMask, Nat.testBit_shiftLeft]
    by_cases h16 : i < 16
    · have e1 : ¬ (32 ≤ 16 + i ∧ 16 + i < 64) := by omega
      have e2 : 16 + i ≥ 16 := by omega
      have e3 : 16 + i - 16 = i := by omega
      simp [h16, e1, e2, e3, testBit_false_of_lt_65536 (16 + i) hc' (by omega)]
    · simp [h16, testBit_false_of_lt_65536 i hr' (by omega)]
  · -- new col field: bits 0..15 come from the recomputed col
    apply Nat.eq_of_testBit_eq
    intro i
    simp only [h65536, Nat.testBit_mod_two_pow, Nat.testBit_or,
      Nat.testBit_and, testBit_scrollMask, Nat.testBit_shiftLeft]
    by_cases h16 : i < 16
    · have e1 : ¬ (32 ≤ i ∧ i < 64) := by omega
      have e2 : ¬ (i ≥ 16) := by omega
      simp [h16, e1, e2]
    · simp [h16, testBit_false_of_lt_65536 i hc' (by omega)]
  · -- width field: bits 48..63 pass through the mask untouched
    apply Nat.eq_of_testBit_eq
    intro i
    simp only [h65536, Nat.testBit_mod_two_pow, Nat.testBit_shiftRight,
      Nat.testBit_or, Nat.testBit_and, testBit_scrollMask, Nat.testBit_shiftLeft]
    by_cases h16 : i < 16
    · have e1 : 32 ≤ 48 + i ∧ 48 + i < 64 := by omega
      have e2 : 48 + i ≥ 16 := by omega
      have e3 : r'.testBit (48 + i - 16) = false :=
        testBit_false_of_lt_65536 (48 + i - 16) hr' (by omega)
      have e4 : c'.testBit (48 + i) = false :=
        testBit_false_of_lt_65536 (48 + i) hc' (by omega)
      simp [h16, e1, e2, e3, e4]
    · simp [h16]
  · -- height field: bits 32..47 pass through the mask untouched
    apply Nat.eq_of_testBit_eq
    intro i
    simp only [h65536, Nat.testBit_mod_two_pow, Nat.testBit_shiftRight,
      Nat.testBit_or, Nat.testBit_and, testBit_scrollMask, Nat.testBit_shiftLeft]
    by_cases h16 : i < 16
    · have e1 : 32 ≤ 32 + i ∧ 32 + i < 64 := by omega
      have e2 : 32 + i ≥ 16 := by omega
      have e3 : r'.testBit (32 + i - 16) = false :=
        testBit_false_of_lt_65536 (32 + i - 16) hr' (by omega)
      have e4 : c'.testBit (32 + i) = false :=
        testBit_false_of_lt_65536 (32 + i) hc' (by omega)
      simp [h16, e1, e2, e3, e4]
    · simp [h16]

/-- C9: `Viewport::scroll` adds each signed delta to the corresponding top
coordinate independently, saturating at 0 below (and at 65535 above, the
u16 ceiling), and leaves the packed width and height fields unchanged. -/
theorem viewport_scroll_spec (u : Viewport) (rows cols : Int) :
    Viewport.rect (Viewport.scroll u rows cols) =
      (min ((((u >>> 16) % 65536 : Nat) : Int) + rows).toNat 65535,
       min (((u % 65536 : Nat) : Int) + cols).toNat 65535,
       (u >>> 48) % 65536, (u >>> 32) % 65536) := by
  have h1 : Viewport.scroll u rows cols =
      (u &&& 0xffffffff00000000) |||
        (apply_scroll ((u >>> 16) % 65536) rows <<< 16) |||
        apply_scroll (u % 65536) cols := rfl
  rw [h1, rect_mask_or u _ _
      (apply_scroll_lt _ rows (Nat.mod_lt _ (by omega)))
      (apply_scroll_lt _ cols (Nat.mod_lt _ (by omega))),
    apply_scroll_eq _ rows (Nat.mod_lt _ (by omega)),
    apply_scroll_eq _ cols (Nat.mod_lt _ (by omega))]

/-- C4: storing a quadruple of representable 16-bit values and reading it
back through `rect` (resp. `scroll_top`) returns exactly the stored values. -/
theorem viewport_roundtrip (r c w h : Nat) (hr : r < 65536) (hc : c < 65536)
    (hw : w < 65536) (hh : h < 65536) :
    Viewport.rect (Viewport.store r c w h) = (r, c, w, h) ∧
      Viewport.scroll_top (Viewport.store r c w h) = (r, c) := by
  have hrect := rect_store r c w h hr hc hw hh
  refine ⟨hrect, ?_⟩
  unfold Viewport.rect at hrect
  simp only [Prod.mk.injEq] at hrect
  unfold Viewport.scroll_top
  rw [hrect.1, hrect.2.1]

theorem viewport_roundtrip_witness :
    Viewport.rect (Viewport.store 3 5 7 9) = (3, 5, 7, 9) ∧
      Viewport.scroll_top (Viewport.store 3 5 7 9) = (3, 5) :=
  viewport_roundtrip 3 5 7 9 (by decide) (by decide) (by decide) (by decide)

/-- C3 (amended): when `prev_top + length` does not overflow u16 and the
visible length is at least 1, `next_scroll_top` returns `cursor` when the
cursor is before the top, `cursor + 1 - length` when the cursor is at or past
`prev_top + length`, and `prev_top` otherwise. -/
theorem next_scroll_top_spec (p c l : Nat) (hc : c < 65536)
    (hov : p + l ≤ 65535) (hl : 1 ≤ l) :
    next_scroll_top p c l =
      if c < p then c else if p + l ≤ c then c + 1 - l else p := by
  unfold next_scroll_top
  split_ifs <;> omega

theorem next_scroll_top_spec_witness :
    next_scroll_top 5 20 10 =
      if 20 < 5 then (20 : Nat) else if 5 + 10 ≤ 20 then 20 + 1 - 10 else 5 :=
  next_scroll_top_spec 5 20 10 (by decide) (by decide) (by decide)

/-- C3 counterexample: with `prev_top = 60000`, `cursor = 65000`,
`length = 10000` the cursor lies inside `[prev_top, prev_top + length)` in
exact arithmetic, so the claim demands `prev_top` back; the code's u16
computation of `prev_top + length` wraps and it returns `55001` instead. -/
theorem next_scroll_top_overflow_cex :
    (¬ (65000 < 60000) ∧ 65000 < 60000 + 10000) ∧
      next_scroll_top 60000 65000 10000 ≠ 60000 := by
  constructor
  · exact ⟨by decide, by decide⟩
  · decide

/-! ### Strings and UTF-8 byte offsets (`highlight.rs`)

Rust strings become `List Char`; byte offsets use `Char.utf8Size`. -/

/-- Total UTF-8 byte length of a character list (Rust `str::len`). -/
def utf8Len : List Char → Nat
  | [] => 0
  | c :: cs => c.utf8Size + utf8Len cs

/-- Offset-annotated characters starting at byte offset `ofs`. -/
def charIndicesGo (ofs : Nat) : List Char → List (Nat × Char)
  | [] => []
  | c :: cs => (ofs, c) :: charIndicesGo (ofs + c.utf8Size) cs

/-- Model of Rust `str::char_indices`: each character paired with its starting
byte offset. -/
def charIndices (l : List Char) : List (Nat × Char) := charIndicesGo 0 l

/-- Characters of `l` (a list starting at byte offset `ofs`) whose starting
byte offset lies in `[s, e)`. -/
def sliceGo (ofs s e : Nat) : List Char → List Char
  | [] => []
  | c :: cs =>
    (if s ≤ ofs ∧ ofs < e then [c] else []) ++ sliceGo (ofs + c.utf8Size) s e cs

/-- Model of Rust `&line[s..e]`: when `s` and `e` are character-boundary
byte offsets this selects exactly the characters of that byte range. -/
def byteSlice (l : List Char) (s e : Nat) : List Char := sliceGo 0 s e l

/-- Model of Rust `&line[s..]`: every character offset is below `utf8Len l`,
so slicing up to the total byte length keeps the whole suffix. -/
def sliceFrom (l : List Char) (s : Nat) : List Char := byteSlice l s (utf8Len l)

/-- Byte offsets that lie on a character boundary of `l` (including the end
offset), used to state the char-boundary-alignment hypotheses. -/
def charBoundaries (l : List Char) : List Nat :=
  (List.range (l.length + 1)).map fun k => utf8Len (l.take k)

/-- Modelled from the spec: tab expansion as described in section 4.1 —
every tab character replaced by exactly `w` spaces, all other characters
kept.  This is the specification-side yardstick `replace_tabs` is compared
against. -/
def expandTabsSpec (w : Nat) (l : List Char) : List Char :=
  l.flatMap fun c => if c = '\t' then List.replicate w ' ' else [c]

/-- Loop body of `replace_tabs` (`highlight.rs` lines 40-52): `pre` is the
already-consumed prefix (Rust's `&s[..i]`), `buf` the output buffer which
stays empty until the first tab is seen. -/
def replaceTabsGo (tab : List Char) : List Char → List Char → List Char → List Char
  | _pre, buf, [] => buf
  | pre, buf, c :: cs =>
    if buf.isEmpty then
      if c = '\t' then replaceTabsGo tab (pre ++ [c]) (pre ++ tab) cs
      else replaceTabsGo tab (pre ++ [c]) buf cs
    else
      if c = '\t' then replaceTabsGo tab (pre ++ [c]) (buf ++ tab) cs
      else replaceTabsGo tab (pre ++ [c]) (buf ++ [c]) cs

/-- Model of `replace_tabs` (`highlight.rs` lines 37-58): returns the
original slice when the buffer was never started (`Cow::Borrowed`). -/
def replace_tabs (s : List Char) (tab_len : Nat) : List Char :=
  let tab := spaces tab_len
  let buf := replaceTabsGo tab [] [] s
  if buf.isEmpty then s else buf

/-! ### Boundaries and the LineHighlighter (`highlight.rs` lines 7-171) -/

/-- Model of the `Boundary` enum; `End` is renamed `stop` (`end` is a Lean
keyword). -/
inductive Boundary where
  | cursor (s : Style)
  | search (s : Style)
  | stop
deriving DecidableEq

/-- Model of the `rank` helper inside `Boundary::cmp`. -/
def Boundary.rank : Boundary → Nat
  | .cursor _ => 2
  | .search _ => 1
  | .stop => 0

/-- Model of `Boundary::style`. -/
def Boundary.style : Boundary → Option Style
  | .cursor s => some s
  | .search s => some s
  | .stop => none

/-- The comparator used by `into_spans` to sort boundaries: ascending byte
offset, ties broken by ascending rank (`highlight.rs` lines 133-136). -/
def boundaryLe (x y : Boundary × Nat) : Bool :=
  decide (x.2 < y.2) || (decide (x.2 = y.2) && decide (x.1.rank ≤ y.1.rank))

/-- Model of `ratatui` `Span`: a text run paired with a style. -/
structure Span where
  content : List Char
  style : Style
deriving DecidableEq

/-- Concatenated text of a span list. -/
def spansText (spans : List Span) : List Char := spans.flatMap Span.content

/-- Model of the `LineHighlighter` struct (`highlight.rs` lines 60-68). -/
structure LineHighlighter where
  line : List Char
  spans : List Span
  boundaries : List (Boundary × Nat)
  style_begin : Style
  cursor_at_end : Bool
  cursor_style : Style
  tab_len : Nat

/-- Model of `LineHighlighter::new` (`highlight.rs` lines 71-81). -/
def LineHighlighter.new (line : List Char) (cursor_style : Style)
    (tab_len : Nat) : LineHighlighter :=
  ⟨line, [], [], Style.default, false, cursor_style, tab_len⟩

/-- Model of `LineHighlighter::line_number` (`highlight.rs` lines 83-87). -/
def LineHighlighter.line_number (h : LineHighlighter) (row lnum_len : Nat)
    (style : Style) : LineHighlighter :=
  let pad := spaces (lnum_len - numDigits (row + 1) + 1)
  { h with spans := h.spans ++ [⟨pad ++ natChars (row + 1) ++ [' '], style⟩] }

/-- Model of `LineHighlighter::push_spans` (`highlight.rs` lines 89-91). -/
def LineHighlighter.push_spans (h : LineHighlighter) (spans : List Span) :
    LineHighlighter :=
  { h with spans := h.spans ++ spans }

/-- Model of `LineHighlighter::cursor_line` (`highlight.rs` lines 93-102). -/
def LineHighlighter.cursor_line (h : LineHighlighter) (cursor_col : Nat)
    (style : Style) : LineHighlighter :=
  match (charIndices h.line)[cursor_col]? with
  | some (start, c) =>
      { h with
        boundaries := h.boundaries ++
          [(Boundary.cursor h.cursor_style, start),
           (Boundary.stop, start + c.utf8Size)],
        style_begin := style }
  | none => { h with cursor_at_end := true, style_begin := style }

/-- Boundary pairs produced by the loop of `LineHighlighter::search`
(`highlight.rs` lines 104-112): zero-width matches are dropped. -/
def searchPairs (style : Style) : List (Nat × Nat) → List (Boundary × Nat)
  | [] => []
  | (s, e) :: rest =>
    (if s ≠ e then [(Boundary.search style, s), (Boundary.stop, e)] else []) ++
      searchPairs style rest

/-- Model of `LineHighlighter::search`. -/
def LineHighlighter.search (h : LineHighlighter) (ms : List (Nat × Nat))
    (style : Style) : LineHighlighter :=
  { h with boundaries := h.boundaries ++ searchPairs style ms }

/-- Loop of `LineHighlighter::into_spans` (`highlight.rs` lines 143-168):
sweeps the sorted boundary list with the running style, the start offset of
the pending slice, and the style stack (Rust pushes/pops at the vector's
end; we push/pop at the list head). -/
def sweep (line : List Char) (tab_len : Nat) (style_begin : Style)
    (cursor_at_end : Bool) (cursor_style : Style) :
    List (Boundary × Nat) → Style → Nat → List Style → List Span
  | [], style, start, _stack =>
    (if start ≠ utf8Len line then
      [⟨replace_tabs (sliceFrom line start) tab_len, style⟩]
     else []) ++
      (if cursor_at_end then [⟨[' '], cursor_style⟩] else [])
  | (b, e) :: bs, style, start, stack =>
    (if start < e then
      [⟨replace_tabs (byteSlice line start e) tab_len, style⟩]
     else []) ++
      match b.style with
      | some s =>
        sweep line tab_len style_begin cursor_at_end cursor_style bs s e
          (style :: stack)
      | none =>
        sweep line tab_len style_begin cursor_at_end cursor_style bs
          (stack.headD style_begin) e stack.tail

/-- Model of `LineHighlighter::into_spans` (`highlight.rs` lines 114-169). -/
def LineHighlighter.into_spans (h : LineHighlighter) : List Span :=
  if h.boundaries.isEmpty then
    (h.spans ++ [⟨replace_tabs h.line h.tab_len, h.style_begin⟩]) ++
      (if h.cursor_at_end then [⟨[' '], h.cursor_style⟩] else [])
  else
    h.spans ++
      sweep h.line h.tab_len h.style_begin h.cursor_at_end h.cursor_style
        (h.boundaries.mergeSort boundaryLe) h.style_begin 0 []

/-! ### Properties of `replace_tabs` (claim C5) -/

theorem spaces_ne_nil (w : Nat) (hw : 1 ≤ w) : spaces w ≠ [] := by
  intro h
  have := congrArg List.length h
  simp [spaces] at this
  omega

theorem replaceTabsGo_of_ne_nil (tab : List Char) :
    ∀ (rest pre buf : List Char), buf ≠ [] →
      replaceTabsGo tab pre buf rest =
        buf ++ rest.flatMap fun c => if c = '\t' then tab else [c] := by
  intro rest
  induction rest with
  | nil => intro pre buf _; simp [replaceTabsGo]
  | cons c cs ih =>
    intro pre buf hbuf
    have hbe : buf.isEmpty = false := by simpa [List.isEmpty_iff] using hbuf
    by_cases hc : c = '\t'
    · have hne : buf ++ tab ≠ [] := by simp [hbuf]
      simp [replaceTabsGo, hbe, hc, ih _ _ hne]
    · have hne : buf ++ [c] ≠ [] := by simp
      simp [replaceTabsGo, hbe, hc, ih _ _ hne]

theorem replaceTabsGo_of_nil (tab : List Char) (htab : tab ≠ []) :
    ∀ (rest pre : List Char),
      replaceTabsGo tab pre [] rest =
        if '\t' ∈ rest then
          pre ++ rest.flatMap fun c => if c = '\t' then tab else [c]
        else [] := by
  intro rest
  induction rest with
  | nil => intro pre; simp [replaceTabsGo]
  | cons c cs ih =>
    intro pre
    by_cases hc : c = '\t'
    · have hne : pre ++ tab ≠ [] := by simp [htab]
      simp [replaceTabsGo, hc, replaceTabsGo_of_ne_nil tab cs _ _ hne,
        List.append_assoc]
    · have hcc : ¬ ('\t' = c) := fun h => hc h.symm
      have hstep : replaceTabsGo tab pre [] (c :: cs) =
          replaceTabsGo tab (pre ++ [c]) [] cs := by
        simp [replaceTabsGo, hc]
      rw [hstep, ih]
      by_cases hm : '\t' ∈ cs
      · simp [List.mem_cons, hm, hcc, hc, List.append_assoc]
      · simp [List.mem_cons, hm, hcc, hc]

theorem replaceTabsGo_no_tab (tab : List Char) :
    ∀ (rest pre : List Char), '\t' ∉ rest → replaceTabsGo tab pre [] rest = [] := by
  intro rest
  induction rest with
  | nil => intro pre _; simp [replaceTabsGo]
  | cons c cs ih =>
    intro pre hmem
    have hc : ¬ (c = '\t') := fun h => hmem (h ▸ List.mem_cons_self c cs)
    have hcs : '\t' ∉ cs := fun h => hmem (List.mem_cons_of_mem c h)
    simp [replaceTabsGo, hc, ih _ hcs]

theorem flatMapTab_no_tab (tab l : List Char) (h : '\t' ∉ l) :
    (l.flatMap fun c => if c = '\t' then tab else [c]) = l := by
  induction l with
  | nil => simp
  | cons c cs ih =>
    have hc : ¬ (c = '\t') := fun hc => h (hc ▸ List.mem_cons_self c cs)
    have hcs : '\t' ∉ cs := fun hm => h (List.mem_cons_of_mem c hm)
    simp [hc, ih hcs]

theorem flatMapTab_ne_nil (tab l : List Char) (htab : tab ≠ []) (h : l ≠ []) :
    (l.flatMap fun c => if c = '\t' then tab else [c]) ≠ [] := by
  cases l with
  | nil => exact absurd rfl h
  | cons c cs =>
    by_cases hc : c = '\t' <;> simp [hc, htab]

theorem replace_tabs_no_tab (s : List Char) (w : Nat) (h : '\t' ∉ s) :
    replace_tabs s w = s := by
  simp only [replace_tabs]
  rw [replaceTabsGo_no_tab (spaces w) s [] h]
  simp

theorem replace_tabs_eq_expand (s : List Char) (w : Nat) (hw : 1 ≤ w) :
    replace_tabs s w = expandTabsSpec w s := by
  have htab : spaces w ≠ [] := spaces_ne_nil w hw
  have hexp : (s.flatMap fun c => if c = '\t' then spaces w else [c]) =
      expandTabsSpec w s := by
    simp [expandTabsSpec, spaces]
  simp only [replace_tabs]
  rw [replaceTabsGo_of_nil (spaces w) htab s []]
  by_cases hm : '\t' ∈ s
  · have hne : (s.flatMap fun c => if c = '\t' then spaces w else [c]) ≠ [] :=
      flatMapTab_ne_nil (spaces w) s htab (by rintro rfl; simp at hm)
    simp only [hm, if_true, List.nil_append]
    rw [hexp] at hne ⊢
    simp [List.isEmpty_iff, hne]
  · simp only [hm, if_false, List.isEmpty_nil, if_true]
    rw [← hexp, flatMapTab_no_tab (spaces w) s hm]

/-- C5 (amended): a tab-free slice is returned with content identical to the
input for every tab width; for tab widths of at least 1 every tab character
is replaced by exactly `w` spaces.  (For `w = 0` and a line whose first tab
has an empty prefix the buffer stays empty and the line is returned with its
tabs intact, refuting the unrestricted claim.) -/
theorem replace_tabs_spec (s : List Char) (w : Nat) :
    ('\t' ∉ s → replace_tabs s w = s) ∧
      (1 ≤ w → replace_tabs s w = expandTabsSpec w s) :=
  ⟨replace_tabs_no_tab s w, replace_tabs_eq_expand s w⟩

theorem replace_tabs_spec_witness :
    replace_tabs ('a' :: '\t' :: 'b' :: []) 4 =
      expandTabsSpec 4 ('a' :: '\t' :: 'b' :: []) :=
  (replace_tabs_spec ('a' :: '\t' :: 'b' :: []) 4).2 (by decide)

/-- C5 counterexample: with tab width 0 and a line starting with a tab, the
buffer `s[..i] ++ tab` built at the first tab is empty, so `replace_tabs`
returns the borrowed original including its tab, while the claim demands the
tab be replaced by zero spaces (i.e. deleted). -/
theorem replace_tabs_zero_cex :
    replace_tabs ('\t' :: []) 0 = ('\t' :: []) ∧
      replace_tabs ('\t' :: []) 0 ≠ expandTabsSpec 0 ('\t' :: []) := by
  constructor <;> decide

/-! ### Character-index facts -/

theorem utf8Len_append (a b : List Char) :
    utf8Len (a ++ b) = utf8Len a + utf8Len b := by
  induction a with
  | nil => simp [utf8Len]
  | cons c cs ih => simp [utf8Len, ih, Nat.add_assoc]

theorem charIndicesGo_length (l : List Char) :
    ∀ ofs, (charIndicesGo ofs l).length = l.length := by
  induction l with
  | nil => intro ofs; simp [charIndicesGo]
  | cons c cs ih => intro ofs; simp [charIndicesGo, ih]

theorem charIndicesGo_getElem? (l : List Char) :
    ∀ ofs k, (charIndicesGo ofs l)[k]? =
      (l[k]?).map fun c => (ofs + utf8Len (l.take k), c) := by
  induction l with
  | nil => intro ofs k; simp [charIndicesGo]
  | cons c cs ih =>
    intro ofs k
    cases k with
    | zero => simp [charIndicesGo, utf8Len]
    | succ k =>
      simp [charIndicesGo, ih (ofs + c.utf8Size) k, utf8Len, Nat.add_assoc]

theorem charIndices_getElem? (l : List Char) (k : Nat) :
    (charIndices l)[k]? = (l[k]?).map fun c => (utf8Len (l.take k), c) := by
  simpa [charIndices] using charIndicesGo_getElem? l 0 k

theorem utf8Len_take_succ (l : List Char) (k : Nat) (h : k < l.length) :
    utf8Len (l.take (k + 1)) =
      utf8Len (l.take k) + (l.get ⟨k, h⟩).utf8Size := by
  rw [List.take_succ, utf8Len_append, List.getElem?_eq_getElem h]
  simp [utf8Len, List.get_eq_getElem]

/-- Characterisation of `cursor_line` for an in-bounds cursor column: it
appends the cursor/stop boundary pair at the cursor character's byte range
and overwrites the base style. -/
theorem cursor_line_of_lt (h : LineHighlighter) (col : Nat) (sb : Style)
    (hcol : col < h.line.length) :
    h.cursor_line col sb =
      { h with
        boundaries := h.boundaries ++
          [(Boundary.cursor h.cursor_style, utf8Len (h.line.take col)),
           (Boundary.stop, utf8Len (h.line.take col) +
             (h.line.get ⟨col, hcol⟩).utf8Size)],
        style_begin := sb } := by
  unfold LineHighlighter.cursor_line
  have hidx : (charIndices h.line)[col]? =
      some (utf8Len (h.line.take col), h.line.get ⟨col, hcol⟩) := by
    rw [charIndices_getElem?, List.getElem?_eq_getElem hcol]
    simp [List.get_eq_getElem]
  rw [hidx]

/-- Characterisation of `cursor_line` for a past-the-end cursor column: the
boundary list is untouched, only the flag and base style change. -/
theorem cursor_line_of_ge (h : LineHighlighter) (col : Nat) (sb : Style)
    (hcol : h.line.length ≤ col) :
    h.cursor_line col sb = { h with cursor_at_end := true, style_begin := sb } := by
  unfold LineHighlighter.cursor_line
  have hidx : (charIndices h.line)[col]? = none := by
    rw [charIndices_getElem?, List.getElem?_eq_none hcol]
    rfl
  rw [hidx]

/-! ### Cursor-past-end and style provenance (claims C6, C10) -/

/-- C10: `LineHighlighter::new` initialises the base style to the default
style; every `cursor_line` call overwrites the base style with its own style
argument (even past the end of the line), while the boundary pair placed on
the cursor character always carries the constructor's cursor style, never
`cursor_line`'s argument. -/
theorem style_begin_provenance (line : List Char) (cstyle sb : Style)
    (w col : Nat) :
    (LineHighlighter.new line cstyle w).style_begin = Style.default ∧
    (∀ h : LineHighlighter, (h.cursor_line col sb).style_begin = sb) ∧
    ((LineHighlighter.new line cstyle w).cursor_line col sb).boundaries =
      (if hcol : col < line.length then
        [(Boundary.cursor cstyle, utf8Len (line.take col)),
         (Boundary.stop,
           utf8Len (line.take col) + (line.get ⟨col, hcol⟩).utf8Size)]
       else []) := by
  refine ⟨rfl, ?_, ?_⟩
  · intro h
    unfold LineHighlighter.cursor_line
    split <;> rfl
  · by_cases hcol : col < line.length
    · rw [cursor_line_of_lt (LineHighlighter.new line cstyle w) col sb hcol]
      simp [LineHighlighter.new, hcol]
    · rw [cursor_line_of_ge (LineHighlighter.new line cstyle w) col sb
        (Nat.le_of_not_lt hcol)]
      simp [LineHighlighter.new, hcol]

/-- C6: a cursor column at or past the line's character count adds no
boundary pair, and finalising a highlighter that only received such a cursor
request emits the whole (tab-expanded) line in the base style followed by a
single-space span in the cursor style. -/
theorem cursor_past_end_spec (h : LineHighlighter) (line : List Char)
    (cstyle sb : Style) (w col : Nat) (h1 : h.line.length ≤ col)
    (h2 : line.length ≤ col) :
    (h.cursor_line col sb).boundaries = h.boundaries ∧
    ((LineHighlighter.new line cstyle w).cursor_line col sb).into_spans =
      [⟨replace_tabs line w, sb⟩, ⟨[' '], cstyle⟩] := by
  constructor
  · rw [cursor_line_of_ge h col sb h1]
  · have hstate : (LineHighlighter.new line cstyle w).cursor_line col sb =
        ⟨line, [], [], sb, true, cstyle, w⟩ :=
      cursor_line_of_ge (LineHighlighter.new line cstyle w) col sb h2
    rw [hstate]
    unfold LineHighlighter.into_spans
    simp

theorem cursor_past_end_witness :
    ((LineHighlighter.new ('h' :: 'i' :: []) 9 4).cursor_line 2 7).into_spans =
      [⟨'h' :: 'i' :: [], 7⟩, ⟨[' '], 9⟩] := by
  have h := (cursor_past_end_spec (LineHighlighter.new ('h' :: 'i' :: []) 9 4)
    ('h' :: 'i' :: []) 9 7 4 2 (by decide) (by decide)).2
  rw [h]
  decide

/-! ### Line-number prefix spans (claim C8) -/

/-- Text of the line-number prefix span the `Renderer` prepends
(`widget.rs` lines 225-231): Rust `format!` with minimum width `lnum_len`
right-aligns the decimal number with spaces, then a single space follows. -/
def rendererLineNumSpan (lnum_len n : Nat) : List Char :=
  spaces (lnum_len - numDigits n) ++ natChars n ++ [' ']

/-- C8 (amended): `LineHighlighter::line_number` produces a span of
`lnum_len - digits + 1` pad spaces, the 1-based row number, and one trailing
space — total character length `lnum_len + 2`; the `Renderer`'s prepended
prefix span right-aligns the row number in width `lnum_len` plus one
trailing space — total length `lnum_len + 1`.  The two widths differ by
one. -/
theorem line_number_span_len (h : LineHighlighter) (row lnum_len n : Nat)
    (style : Style) (hd1 : numDigits (row + 1) ≤ lnum_len)
    (hd2 : numDigits n ≤ lnum_len) :
    (h.line_number row lnum_len style).spans =
      h.spans ++ [⟨spaces (lnum_len - numDigits (row + 1) + 1) ++
        natChars (row + 1) ++ [' '], style⟩] ∧
    (spaces (lnum_len - numDigits (row + 1) + 1) ++
      natChars (row + 1) ++ [' ']).length = lnum_len + 2 ∧
    (rendererLineNumSpan lnum_len n).length = lnum_len + 1 := by
  refine ⟨rfl, ?_, ?_⟩
  · simp only [numDigits] at hd1
    simp [spaces, numDigits]
    omega
  · simp only [numDigits] at hd2
    simp [rendererLineNumSpan, spaces, numDigits]
    omega

theorem line_number_span_len_witness :
    (((LineHighlighter.new [] 0 4).line_number 4 2 6).spans =
      [⟨spaces (2 - numDigits 5 + 1) ++ natChars 5 ++ [' '], 6⟩]) ∧
    (spaces (2 - numDigits 5 + 1) ++ natChars 5 ++ [' ']).length = 2 + 2 ∧
    (rendererLineNumSpan 2 10).length = 2 + 1 := by
  have h := line_number_span_len (LineHighlighter.new [] 0 4) 4 2 10 6
    (by decide) (by decide)
  exact ⟨h.1, h.2.1, h.2.2⟩

/-- C8 counterexample: for one line of text (`lnum_len = 1`) the span built
by `LineHighlighter::line_number` for row 0 is `" 1 "` of length 3, not the
claimed digit-width plus one (2). -/
theorem line_number_len_cex :
    (((LineHighlighter.new [] 0 4).line_number 0 1 7).spans.map
      fun sp => sp.content.length) = [3] ∧ (3 : Nat) ≠ 1 + 1 := by
  constructor <;> decide

/-! ### Renderer text composition (`widget.rs` lines 180-285, claim C7)

The `TextArea` accessors the renderer reads are modelled as a record of
values.  `usize` operations that would panic (slicing with a start beyond
the end, subtraction underflow, indexing past the end) surface as `none`. -/

/-- Accessor values of the `TextArea` consumed by `Renderer::text`:
`text().lines`, `lines()`, `cursor()`, `cursor_style()`,
`line_number_style()`. -/
structure TextArea where
  text_lines : List (List Span)
  lines : List (List Char)
  cursor : Nat × Nat
  cursor_style : Style
  line_number_style : Option Style

/-- Accumulated byte length of a span list (the loop's `i`, summing
`span.content.len()`). -/
def spansByteLen : List Span → Nat
  | [] => 0
  | sp :: rest => utf8Len sp.content + spansByteLen rest

/-- The span-patching loop of `Renderer::text` (`widget.rs` lines 242-272):
accumulate byte lengths; the first span whose accumulated length reaches the
(already adjusted) cursor column has its style patched, the rest are left
untouched. -/
def patchRowGo (cs : Style) (col : Nat) : Nat → List Span → List Span
  | _i, [] => []
  | i, sp :: rest =>
    if col ≤ i + utf8Len sp.content then ⟨sp.content, cs⟩ :: rest
    else sp :: patchRowGo cs col (i + utf8Len sp.content) rest

/-- The adjusted cursor column of `Renderer::text`: line 204 executes
`cursor.1 += lnum_len + 1` unconditionally, before and independently of the
line-number-style test. -/
def Renderer.ccol (ta : TextArea) : Nat :=
  ta.cursor.2 + numDigits ta.lines.length + 1

/-- The clamped row of interest `(cursor.0 - top_row).clamp(0, lines_len - 1)`
(`widget.rs` line 241). -/
def Renderer.roi (ta : TextArea) (top_row : Nat) : Nat :=
  min (ta.cursor.1 - top_row) (ta.lines.length - 1)

/-- `bottom_row = cmp::min(top_row + height, lines_len)` (line 205). -/
def Renderer.bottomRow (ta : TextArea) (top_row height : Nat) : Nat :=
  min (top_row + height) ta.lines.length

/-- The visible slice with optional line-number prefixes
(`widget.rs` lines 220-237). -/
def Renderer.composeLines (ta : TextArea) (top_row bottom_row : Nat) :
    List (List Span) :=
  (((ta.text_lines.drop top_row).take
      (min bottom_row ta.text_lines.length - top_row)).enum).map
    fun p =>
      match ta.line_number_style with
      | some style =>
        ⟨rendererLineNumSpan (numDigits ta.lines.length) (top_row + p.1 + 1),
          style⟩ :: p.2
      | none => p.2

/-- Model of `Renderer::text` (`widget.rs` lines 188-284).  The outer guard
rules out the `usize` panics (slice start past the end, `cursor.0 - top_row`
underflow, `lines_len - 1` underflow); indexing `text.lines[roi]` past the
end is the final `none`. -/
def Renderer.text (ta : TextArea) (top_row height : Nat) :
    Option (List (List Span)) :=
  if top_row ≤ min (Renderer.bottomRow ta top_row height) ta.text_lines.length ∧
      top_row ≤ ta.cursor.1 ∧ 1 ≤ ta.lines.length then
    let text := Renderer.composeLines ta top_row (Renderer.bottomRow ta top_row height)
    if text.isEmpty then some text
    else if Renderer.roi ta top_row = text.length then some text
    else
      match text[Renderer.roi ta top_row]? with
      | some row =>
        some (text.set (Renderer.roi ta top_row)
          (patchRowGo ta.cursor_style (Renderer.ccol ta) 0 row))
      | none => none
  else none

theorem spansByteLen_take_succ (row : List Span) (k : Nat) (sp : Span)
    (hk : row[k]? = some sp) :
    spansByteLen (row.take (k + 1)) =
      spansByteLen (row.take k) + utf8Len sp.content := by
  induction row generalizing k with
  | nil => simp at hk
  | cons hd tl ih =>
    cases k with
    | zero =>
      simp at hk
      simp [hk, spansByteLen]
    | succ k =>
      simp at hk
      simp [spansByteLen, ih k hk, Nat.add_assoc]

/-- Characterisation of the patching loop: under the hypotheses that the
accumulated length so far has not yet reached the column but the row's total
does, the loop patches exactly the first span whose accumulated length
reaches the column and keeps every other span intact. -/
theorem patchRowGo_spec (cs : Style) (col : Nat) :
    ∀ (row : List Span) (i : Nat), i < col → col ≤ i + spansByteLen row →
      ∃ k sp, row[k]? = some sp ∧
        col ≤ i + spansByteLen (row.take (k + 1)) ∧
        (∀ j, j < k → i + spansByteLen (row.take (j + 1)) < col) ∧
        patchRowGo cs col i row =
          row.take k ++ ⟨sp.content, cs⟩ :: row.drop (k + 1) := by
  intro row
  induction row with
  | nil =>
    intro i hlt hreach
    simp [spansByteLen] at hreach
    omega
  | cons sp rest ih =>
    intro i hlt hreach
    by_cases hhit : col ≤ i + utf8Len sp.content
    · refine ⟨0, sp, by simp, ?_, by omega, ?_⟩
      · simpa [spansByteLen] using hhit
      · simp [patchRowGo, hhit]
    · have hreach' : col ≤ (i + utf8Len sp.content) + spansByteLen rest := by
        simp [spansByteLen] at hreach
        omega
      obtain ⟨k, sp', hk, hcum, hmin, hpatch⟩ :=
        ih (i + utf8Len sp.content) (by omega) hreach'
      refine ⟨k + 1, sp', by simpa using hk, ?_, ?_, ?_⟩
      · simpa [spansByteLen, Nat.add_assoc] using hcum
      · intro j hj
        cases j with
        | zero => simpa [spansByteLen] using Nat.lt_of_not_le hhit
        | succ j =>
          have := hmin j (by omega)
          simpa [spansByteLen, Nat.add_assoc] using this
      · simp [patchRowGo, hhit, hpatch]

/-- C7 (amended): in `Renderer::text` the cursor column is adjusted by
`lnum_len + 1` unconditionally — whether or not a line-number style is
configured and a prefix span prepended (`Renderer.ccol` does not depend on
`line_number_style`) — and then the first span on the cursor's row whose
accumulated byte length reaches the adjusted column has its whole style
patched to the cursor style, with its text and every other span left
unchanged. -/
theorem renderer_text_patches (ta : TextArea) (top_row height : Nat)
    (hguard : top_row ≤ min (Renderer.bottomRow ta top_row height)
        ta.text_lines.length ∧
      top_row ≤ ta.cursor.1 ∧ 1 ≤ ta.lines.length)
    (row : List Span)
    (hrow : (Renderer.composeLines ta top_row
        (Renderer.bottomRow ta top_row height))[Renderer.roi ta top_row]? =
      some row)
    (hreach : Renderer.ccol ta ≤ spansByteLen row) :
    ∃ k sp, row[k]? = some sp ∧
      Renderer.ccol ta ≤ spansByteLen (row.take (k + 1)) ∧
      (∀ j, j < k → spansByteLen (row.take (j + 1)) < Renderer.ccol ta) ∧
      Renderer.text ta top_row height =
        some ((Renderer.composeLines ta top_row
            (Renderer.bottomRow ta top_row height)).set
          (Renderer.roi ta top_row)
          (row.take k ++ ⟨sp.content, ta.cursor_style⟩ :: row.drop (k + 1))) := by
  have hccol_pos : 0 < Renderer.ccol ta := by
    unfold Renderer.ccol
    omega
  obtain ⟨k, sp, hk, hcum, hmin, hpatch⟩ :=
    patchRowGo_spec ta.cursor_style (Renderer.ccol ta) row 0 hccol_pos
      (by simpa using hreach)
  have hlt : Renderer.roi ta top_row <
      (Renderer.composeLines ta top_row
        (Renderer.bottomRow ta top_row height)).length := by
    by_contra hge
    rw [List.getElem?_eq_none (Nat.le_of_not_lt hge)] at hrow
    exact absurd hrow (by simp)
  have h1 : ¬ ((Renderer.composeLines ta top_row
      (Renderer.bottomRow ta top_row height)).isEmpty = true) := by
    simp only [List.isEmpty_iff]
    intro hnil
    rw [hnil] at hlt
    simp at hlt
  have h2 : ¬ (Renderer.roi ta top_row =
      (Renderer.composeLines ta top_row
        (Renderer.bottomRow ta top_row height)).length) := Nat.ne_of_lt hlt
  refine ⟨k, sp, hk, by simpa using hcum, fun j hj => by simpa using hmin j hj, ?_⟩
  simp only [Renderer.text]
  rw [if_pos hguard, if_neg h1, if_neg h2, hrow]
  simp [hpatch]

/-- Concrete renderer state used to exercise `Renderer::text`: one row of two
two-byte spans, no line-number style, cursor at column 1. -/
def rendererExample : TextArea :=
  { text_lines := [[⟨'a' :: 'b' :: [], 1⟩, ⟨'c' :: 'd' :: [], 1⟩]],
    lines := [('x' :: [])],
    cursor := (0, 1),
    cursor_style := 2,
    line_number_style := none }

theorem renderer_text_patches_witness :
    ∃ k sp,
      ([⟨'a' :: 'b' :: [], 1⟩, ⟨'c' :: 'd' :: [], 1⟩] : List Span)[k]? = some sp ∧
      Renderer.ccol rendererExample ≤ spansByteLen
        (([⟨'a' :: 'b' :: [], 1⟩, ⟨'c' :: 'd' :: [], 1⟩] : List Span).take (k + 1)) ∧
      (∀ j, j < k → spansByteLen
        (([⟨'a' :: 'b' :: [], 1⟩, ⟨'c' :: 'd' :: [], 1⟩] : List Span).take (j + 1)) <
          Renderer.ccol rendererExample) ∧
      Renderer.text rendererExample 0 1 =
        some ((Renderer.composeLines rendererExample 0
            (Renderer.bottomRow rendererExample 0 1)).set
          (Renderer.roi rendererExample 0)
          (([⟨'a' :: 'b' :: [], 1⟩, ⟨'c' :: 'd' :: [], 1⟩] : List Span).take k ++
            ⟨sp.content, rendererExample.cursor_style⟩ ::
              ([⟨'a' :: 'b' :: [], 1⟩, ⟨'c' :: 'd' :: [], 1⟩] : List Span).drop (k + 1))) :=
  renderer_text_patches rendererExample 0 1 (by decide)
    [⟨'a' :: 'b' :: [], 1⟩, ⟨'c' :: 'd' :: [], 1⟩] (by decide) (by decide)

/-- C7 counterexample: with no line-number style configured there is no
prefix span, yet the code still shifts the cursor column by `lnum_len + 1`
(here 1 + 2 = 3 > 1): the span `"cd"` is patched to the cursor style even
though the unadjusted cursor column 1 falls inside `"ab"`, which keeps its
style. -/
theorem renderer_conditional_adjust_cex :
    rendererExample.line_number_style = none ∧
    Renderer.text rendererExample 0 1 =
      some [[⟨'a' :: 'b' :: [], 1⟩, ⟨'c' :: 'd' :: [], 2⟩]] ∧ (1 : Style) ≠ 2 :=
  ⟨rfl, by decide, by decide⟩

/-! ### Slice algebra for the coverage proof (claim C1) -/

theorem sliceGo_empty_of_le (l : List Char) :
    ∀ ofs s e, e ≤ ofs → sliceGo ofs s e l = [] := by
  induction l with
  | nil => intro ofs s e _; rfl
  | cons c cs ih =>
    intro ofs s e he
    have : ¬ (s ≤ ofs ∧ ofs < e) := by omega
    simp [sliceGo, this, ih (ofs + c.utf8Size) s e (by omega)]

theorem sliceGo_empty_of_ge (l : List Char) :
    ∀ ofs s e, e ≤ s → sliceGo ofs s e l = [] := by
  induction l with
  | nil => intro ofs s e _; rfl
  | cons c cs ih =>
    intro ofs s e hes
    have : ¬ (s ≤ ofs ∧ ofs < e) := by omega
    simp [sliceGo, this, ih (ofs + c.utf8Size) s e hes]

theorem sliceGo_split (l : List Char) :
    ∀ ofs s e t, s ≤ e → e ≤ t →
      sliceGo ofs s e l ++ sliceGo ofs e t l = sliceGo ofs s t l := by
  induction l with
  | nil => intro ofs s e t _ _; rfl
  | cons c cs ih =>
    intro ofs s e t hse het
    by_cases hofs : ofs < e
    · have h2 : ¬ (e ≤ ofs ∧ ofs < t) := by omega
      by_cases h1 : s ≤ ofs
      · have h3 : s ≤ ofs ∧ ofs < e := ⟨h1, hofs⟩
        have h4 : s ≤ ofs ∧ ofs < t := ⟨h1, by omega⟩
        simp [sliceGo, h3, h4, h2, ← ih (ofs + c.utf8Size) s e t hse het]
      · have h3 : ¬ (s ≤ ofs ∧ ofs < e) := by omega
        have h4 : ¬ (s ≤ ofs ∧ ofs < t) := by omega
        simp [sliceGo, h3, h4, h2, ih (ofs + c.utf8Size) s e t hse het]
    · have h1 : ¬ (s ≤ ofs ∧ ofs < e) := by omega
      have hrest : sliceGo (ofs + c.utf8Size) s e cs = [] :=
        sliceGo_empty_of_le cs _ s e (by omega)
      have heq : sliceGo (ofs + c.utf8Size) e t cs =
          sliceGo (ofs + c.utf8Size) s t cs := by
        rw [← ih (ofs + c.utf8Size) s e t hse het, hrest]
        rfl
      by_cases h2 : ofs < t
      · have h3 : e ≤ ofs ∧ ofs < t := ⟨by omega, h2⟩
        have h4 : s ≤ ofs ∧ ofs < t := ⟨by omega, h2⟩
        simp [sliceGo, h1, h3, h4, hrest, heq]
      · have h3 : ¬ (e ≤ ofs ∧ ofs < t) := by omega
        have h4 : ¬ (s ≤ ofs ∧ ofs < t) := by omega
        simp [sliceGo, h1, h3, h4, hrest, heq]

theorem sliceGo_full (l : List Char) :
    ∀ ofs s e, s ≤ ofs → ofs + utf8Len l ≤ e → sliceGo ofs s e l = l := by
  induction l with
  | nil => intro ofs s e _ _; rfl
  | cons c cs ih =>
    intro ofs s e hs he
    simp only [utf8Len] at he
    have h1 : s ≤ ofs ∧ ofs < e := ⟨hs, by
      have := c.utf8Size_pos
      omega⟩
    simp [sliceGo, h1, ih (ofs + c.utf8Size) s e (by omega) (by omega)]

theorem byteSlice_full (l : List Char) : byteSlice l 0 (utf8Len l) = l :=
  sliceGo_full l 0 0 (utf8Len l) (Nat.le_refl 0) (by omega)

theorem byteSlice_split (l : List Char) (s e t : Nat) (hse : s ≤ e)
    (het : e ≤ t) : byteSlice l s e ++ byteSlice l e t = byteSlice l s t :=
  sliceGo_split l 0 s e t hse het

theorem expandTabsSpec_append (w : Nat) (a b : List Char) :
    expandTabsSpec w (a ++ b) = expandTabsSpec w a ++ expandTabsSpec w b := by
  simp [expandTabsSpec]

theorem spansText_append (a b : List Span) :
    spansText (a ++ b) = spansText a ++ spansText b := by
  simp [spansText]

/-- Coverage of the sweep loop: for a boundary list that is sorted by offset,
starts at or after `start`, and stays within the line, the emitted spans'
concatenated text is exactly the tab-expanded suffix `[start, len)` of the
line, plus the synthetic cursor space when the cursor sits past the end. -/
theorem sweep_coverage (line : List Char) (w : Nat) (sbeg cstyle : Style)
    (cae : Bool) (hw : 1 ≤ w) :
    ∀ (bs : List (Boundary × Nat)) (style : Style) (start : Nat)
      (stack : List Style),
      start ≤ utf8Len line →
      (∀ x ∈ bs, start ≤ x.2 ∧ x.2 ≤ utf8Len line) →
      bs.Pairwise (fun a b => a.2 ≤ b.2) →
      spansText (sweep line w sbeg cae cstyle bs style start stack) =
        expandTabsSpec w (byteSlice line start (utf8Len line)) ++
          (if cae then [' '] else []) := by
  intro bs
  induction bs with
  | nil =>
    intro style start stack hstart _ _
    by_cases hlen : start = utf8Len line
    · rw [hlen]
      rw [show byteSlice line (utf8Len line) (utf8Len line) = [] from
        sliceGo_empty_of_ge line 0 _ _ (Nat.le_refl _)]
      cases cae <;> simp [sweep, hlen, spansText, expandTabsSpec]
    · have hft : replace_tabs (byteSlice line start (utf8Len line)) w =
          expandTabsSpec w (byteSlice line start (utf8Len line)) :=
        replace_tabs_eq_expand _ w hw
      cases cae <;> simp [sweep, hlen, spansText, sliceFrom, hft]
  | cons x bs ih =>
    intro style start stack hstart hmem hsorted
    obtain ⟨b, e⟩ := x
    have hbe : start ≤ e ∧ e ≤ utf8Len line := hmem (b, e) (by simp)
    have hmem' : ∀ x ∈ bs, e ≤ x.2 ∧ x.2 ≤ utf8Len line := by
      intro x hx
      exact ⟨(List.pairwise_cons.mp hsorted).1 x hx, (hmem x (by simp [hx])).2⟩
    have hsorted' : bs.Pairwise (fun a b => a.2 ≤ b.2) :=
      (List.pairwise_cons.mp hsorted).2
    have hhead : spansText (if start < e then
        [⟨replace_tabs (byteSlice line start e) w, style⟩] else []) =
        expandTabsSpec w (byteSlice line start e) := by
      by_cases hse : start < e
      · simp [hse, spansText, replace_tabs_eq_expand _ w hw]
      · have heq : start = e := by omega
        rw [heq, show byteSlice line e e = [] from
          sliceGo_empty_of_ge line 0 e e (Nat.le_refl e)]
        simp [spansText, expandTabsSpec]
    have hre : expandTabsSpec w (byteSlice line start e) ++
        (expandTabsSpec w (byteSlice line e (utf8Len line)) ++
          (if cae then [' '] else [])) =
        expandTabsSpec w (byteSlice line start (utf8Len line)) ++
          (if cae then [' '] else []) := by
      rw [← List.append_assoc, ← expandTabsSpec_append,
        byteSlice_split line start e (utf8Len line) hbe.1 hbe.2]
    cases b with
    | cursor s =>
      rw [show sweep line w sbeg cae cstyle ((Boundary.cursor s, e) :: bs)
          style start stack =
          (if start < e then
            [⟨replace_tabs (byteSlice line start e) w, style⟩] else []) ++
            sweep line w sbeg cae cstyle bs s e (style :: stack) from rfl]
      rw [spansText_append, hhead, ih s e (style :: stack) hbe.2 hmem' hsorted',
        hre]
    | search s =>
      rw [show sweep line w sbeg cae cstyle ((Boundary.search s, e) :: bs)
          style start stack =
          (if start < e then
            [⟨replace_tabs (byteSlice line start e) w, style⟩] else []) ++
            sweep line w sbeg cae cstyle bs s e (style :: stack) from rfl]
      rw [spansText_append, hhead, ih s e (style :: stack) hbe.2 hmem' hsorted',
        hre]
    | stop =>
      rw [show sweep line w sbeg cae cstyle ((Boundary.stop, e) :: bs)
          style start stack =
          (if start < e then
            [⟨replace_tabs (byteSlice line start e) w, style⟩] else []) ++
            sweep line w sbeg cae cstyle bs (stack.headD sbeg) e stack.tail
          from rfl]
      rw [spansText_append, hhead,
        ih (stack.headD sbeg) e stack.tail hbe.2 hmem' hsorted', hre]

/-! ### Boundary bookkeeping for the full coverage theorem -/

theorem utf8Len_take_le (l : List Char) (k : Nat) :
    utf8Len (l.take k) ≤ utf8Len l := by
  conv_rhs => rw [← List.take_append_drop k l]
  rw [utf8Len_append]
  omega

theorem boundaryLe_trans (a b c : Boundary × Nat) (hab : boundaryLe a b = true)
    (hbc : boundaryLe b c = true) : boundaryLe a c = true := by
  simp only [boundaryLe, Bool.or_eq_true, Bool.and_eq_true,
    decide_eq_true_eq] at hab hbc ⊢
  omega

theorem boundaryLe_total (a b : Boundary × Nat) :
    (boundaryLe a b || boundaryLe b a) = true := by
  simp only [boundaryLe, Bool.or_eq_true, Bool.and_eq_true,
    decide_eq_true_eq]
  omega

theorem boundaryLe_offset {a b : Boundary × Nat} (h : boundaryLe a b = true) :
    a.2 ≤ b.2 := by
  simp only [boundaryLe, Bool.or_eq_true, Bool.and_eq_true,
    decide_eq_true_eq] at h
  omega

theorem searchPairs_mem (st : Style) :
    ∀ (rs : List (Nat × Nat)), ∀ x ∈ searchPairs st rs,
      ∃ p ∈ rs, x.2 = p.1 ∨ x.2 = p.2 := by
  intro rs
  induction rs with
  | nil => intro x hx; simp [searchPairs] at hx
  | cons p rest ih =>
    intro x hx
    obtain ⟨s, e⟩ := p
    simp only [searchPairs] at hx
    rcases List.mem_append.mp hx with hx1 | hx2
    · by_cases hse : s ≠ e
      · rw [if_pos hse] at hx1
        rcases List.mem_cons.mp hx1 with rfl | h1
        · exact ⟨(s, e), by simp, Or.inl rfl⟩
        · have hx1' := List.mem_singleton.mp h1
          subst hx1'
          exact ⟨(s, e), by simp, Or.inr rfl⟩
      · rw [if_neg hse] at hx1
        simp at hx1
    · obtain ⟨q, hq, hor⟩ := ih x hx2
      exact ⟨q, by simp [hq], hor⟩

/-- The state built by `new`, `push_spans`, `cursor_line`, `search` in
sequence, split on whether the cursor column is inside the line. -/
theorem built_state (line : List Char) (pres : List Span)
    (ranges : List (Nat × Nat)) (cstyle sbase sstyle : Style) (w col : Nat) :
    ((((LineHighlighter.new line cstyle w).push_spans pres).cursor_line col
        sbase).search ranges sstyle) =
      (if hcol : col < line.length then
        ⟨line, pres,
          (Boundary.cursor cstyle, utf8Len (line.take col)) ::
            (Boundary.stop, utf8Len (line.take col) +
              (line.get ⟨col, hcol⟩).utf8Size) :: searchPairs sstyle ranges,
          sbase, false, cstyle, w⟩
      else ⟨line, pres, searchPairs sstyle ranges, sbase, true, cstyle, w⟩) := by
  by_cases hcol : col < line.length
  · rw [dif_pos hcol]
    unfold LineHighlighter.search
    rw [cursor_line_of_lt ((LineHighlighter.new line cstyle w).push_spans pres)
      col sbase hcol]
    simp [LineHighlighter.new, LineHighlighter.push_spans]
  · rw [dif_neg hcol]
    unfold LineHighlighter.search
    rw [cursor_line_of_ge ((LineHighlighter.new line cstyle w).push_spans pres)
      col sbase (Nat.le_of_not_lt hcol)]
    simp [LineHighlighter.new, LineHighlighter.push_spans]

/-- C1: for every line, cursor column (in-bounds or past the end), prefix
spans, and set of non-zero-width in-bounds char-boundary-aligned search
ranges, the texts of the spans emitted by `into_spans` concatenate to the
prefix spans' text, followed by exactly the tab-expansion of the whole
original line (no gaps, overlaps, or duplication), followed by the trailing
cursor space exactly when the cursor is past the end. -/
theorem into_spans_coverage (line : List Char) (pres : List Span)
    (ranges : List (Nat × Nat)) (cstyle sbase sstyle : Style) (w col : Nat)
    (hw : 1 ≤ w)
    (hranges : ∀ p ∈ ranges, p.1 < p.2 ∧ p.2 ≤ utf8Len line ∧
      p.1 ∈ charBoundaries line ∧ p.2 ∈ charBoundaries line) :
    spansText (((((LineHighlighter.new line cstyle w).push_spans
        pres).cursor_line col sbase).search ranges sstyle).into_spans) =
      spansText pres ++ expandTabsSpec w line ++
        (if line.length ≤ col then [' '] else []) := by
  have hsearch_bound : ∀ x ∈ searchPairs sstyle ranges, x.2 ≤ utf8Len line := by
    intro x hx
    obtain ⟨p, hp, hor⟩ := searchPairs_mem sstyle ranges x hx
    obtain ⟨h1, h2, _, _⟩ := hranges p hp
    rcases hor with h | h <;> omega
  rw [built_state line pres ranges cstyle sbase sstyle w col]
  by_cases hcol : col < line.length
  · rw [dif_pos hcol]
    have hce : utf8Len (line.take col) + (line.get ⟨col, hcol⟩).utf8Size =
        utf8Len (line.take (col + 1)) := (utf8Len_take_succ line col hcol).symm
    set bl := (Boundary.cursor cstyle, utf8Len (line.take col)) ::
      (Boundary.stop, utf8Len (line.take col) +
        (line.get ⟨col, hcol⟩).utf8Size) :: searchPairs sstyle ranges with hbl
    have hbounds : ∀ x ∈ bl.mergeSort boundaryLe,
        0 ≤ x.2 ∧ x.2 ≤ utf8Len line := by
      intro x hx
      have hx' : x ∈ bl := (List.mergeSort_perm bl boundaryLe).mem_iff.mp hx
      rw [hbl] at hx'
      rcases List.mem_cons.mp hx' with rfl | hx'
      · exact ⟨Nat.zero_le _, utf8Len_take_le line col⟩
      rcases List.mem_cons.mp hx' with rfl | hx'
      · refine ⟨Nat.zero_le _, ?_⟩
        rw [hce]
        exact utf8Len_take_le line (col + 1)
      · exact ⟨Nat.zero_le _, hsearch_bound x hx'⟩
    have hpw : (bl.mergeSort boundaryLe).Pairwise (fun a b => a.2 ≤ b.2) :=
      (List.sorted_mergeSort boundaryLe_trans boundaryLe_total bl).imp
        (fun h => boundaryLe_offset h)
    show spansText (LineHighlighter.into_spans ⟨line, pres, bl, sbase, false,
      cstyle, w⟩) = _
    unfold LineHighlighter.into_spans
    rw [if_neg (by rw [hbl]; simp)]
    rw [show (⟨line, pres, bl, sbase, false, cstyle, w⟩ :
        LineHighlighter).spans = pres from rfl]
    rw [spansText_append,
      sweep_coverage line w sbase cstyle false hw (bl.mergeSort boundaryLe)
        sbase 0 [] (Nat.zero_le _) hbounds hpw,
      byteSlice_full]
    have : ¬ (line.length ≤ col) := by omega
    simp [this]
  · rw [dif_neg hcol]
    have hcl : line.length ≤ col := Nat.le_of_not_lt hcol
    by_cases hsp : searchPairs sstyle ranges = []
    · rw [hsp]
      unfold LineHighlighter.into_spans
      rw [if_pos (by simp)]
      simp [spansText_append, spansText, replace_tabs_eq_expand line w hw, hcl]
    · have hbounds : ∀ x ∈ (searchPairs sstyle ranges).mergeSort boundaryLe,
          0 ≤ x.2 ∧ x.2 ≤ utf8Len line := by
        intro x hx
        have hx' : x ∈ searchPairs sstyle ranges :=
          (List.mergeSort_perm _ boundaryLe).mem_iff.mp hx
        exact ⟨Nat.zero_le _, hsearch_bound x hx'⟩
      have hpw : ((searchPairs sstyle ranges).mergeSort boundaryLe).Pairwise
          (fun a b => a.2 ≤ b.2) :=
        (List.sorted_mergeSort boundaryLe_trans boundaryLe_total _).imp
          (fun h => boundaryLe_offset h)
      unfold LineHighlighter.into_spans
      rw [if_neg (by simpa [List.isEmpty_iff] using hsp)]
      rw [show (⟨line, pres, searchPairs sstyle ranges, sbase, true, cstyle,
          w⟩ : LineHighlighter).spans = pres from rfl]
      rw [spansText_append,
        sweep_coverage line w sbase cstyle true hw
          ((searchPairs sstyle ranges).mergeSort boundaryLe) sbase 0 []
          (Nat.zero_le _) hbounds hpw,
        byteSlice_full]
      simp [hcl]

theorem into_spans_coverage_witness :
    spansText (((((LineHighlighter.new ('a' :: '\t' :: 'c' :: []) 9 4).push_spans
        []).cursor_line 1 7).search [(0, 1)] 8).into_spans) =
      spansText [] ++ expandTabsSpec 4 ('a' :: '\t' :: 'c' :: []) ++
        (if ('a' :: '\t' :: 'c' :: []).length ≤ 1 then [' '] else []) := by
  have h := into_spans_coverage ('a' :: '\t' :: 'c' :: []) [] [(0, 1)] 9 7 8 4 1
    (by decide) (by decide)
  exact h

/-! ### Cursor priority (claim C2) -/

theorem utf8Len_take_mono (l : List Char) {j k : Nat} (h : j ≤ k) :
    utf8Len (l.take j) ≤ utf8Len (l.take k) := by
  have hle := utf8Len_take_le (l.take k) j
  rwa [List.take_take, Nat.min_eq_left h] at hle

/-- Character boundaries are gapped by whole characters: a boundary offset
strictly beyond the cursor character's start is at or beyond its end. -/
theorem boundary_gap (line : List Char) (col : Nat) (hcol : col < line.length)
    (t : Nat) (ht : t ∈ charBoundaries line)
    (hgt : utf8Len (line.take col) < t) :
    utf8Len (line.take (col + 1)) ≤ t := by
  simp only [charBoundaries, List.mem_map, List.mem_range] at ht
  obtain ⟨k, hk, rfl⟩ := ht
  have hkcol : col < k := by
    by_contra hle
    exact absurd (utf8Len_take_mono line (Nat.le_of_not_lt hle)) (by omega)
  exact utf8Len_take_mono line (by omega)

/-- Recogniser for cursor boundaries, used to show the sorted list contains
only one. -/
def isCursorB : Boundary → Bool
  | .cursor _ => true
  | _ => false

theorem searchPairs_countP (st : Style) :
    ∀ (rs : List (Nat × Nat)),
      (searchPairs st rs).countP (fun x => isCursorB x.1) = 0 := by
  intro rs
  induction rs with
  | nil => rfl
  | cons p rest ih =>
    obtain ⟨s, e⟩ := p
    simp only [searchPairs]
    rw [List.countP_append, ih]
    by_cases hse : s ≠ e
    · rw [if_pos hse]
      simp [List.countP_cons, isCursorB]
    · rw [if_neg hse]
      rfl

theorem rank_two_isCursor (b : Boundary) (h : 2 ≤ b.rank) :
    isCursorB b = true := by
  cases b <;> simp [Boundary.rank, isCursorB] at h ⊢

/-- Processing a sorted prefix `A` of boundaries that all end at or before
the opening boundary `(b0, e0)`: the sweep emits spans covering exactly
`[start, e0)` and then continues behind `b0` with `b0`'s style as the
current style. -/
theorem sweep_prefix (line : List Char) (w : Nat) (sbeg cstyle : Style)
    (cae : Bool) (b0 : Boundary) (s0 : Style) (hb0 : b0.style = some s0)
    (e0 : Nat) (B : List (Boundary × Nat)) (hw : 1 ≤ w) :
    ∀ (A : List (Boundary × Nat)) (style : Style) (start : Nat)
      (stack : List Style),
      start ≤ e0 →
      (∀ x ∈ A, start ≤ x.2 ∧ x.2 ≤ e0) →
      A.Pairwise (fun a b => a.2 ≤ b.2) →
      ∃ (pre : List Span) (stack' : List Style),
        sweep line w sbeg cae cstyle (A ++ (b0, e0) :: B) style start stack =
          pre ++ sweep line w sbeg cae cstyle B s0 e0 stack' ∧
        spansText pre = expandTabsSpec w (byteSlice line start e0) := by
  intro A
  induction A with
  | nil =>
    intro style start stack hstart _ _
    refine ⟨(if start < e0 then
      [⟨replace_tabs (byteSlice line start e0) w, style⟩] else []),
      style :: stack, ?_, ?_⟩
    · cases b0 with
      | cursor s =>
        simp only [Boundary.style, Option.some.injEq] at hb0
        subst hb0
        rfl
      | search s =>
        simp only [Boundary.style, Option.some.injEq] at hb0
        subst hb0
        rfl
      | stop => simp [Boundary.style] at hb0
    · by_cases hse : start < e0
      · simp [hse, spansText, replace_tabs_eq_expand _ w hw]
      · have heq : start = e0 := by omega
        rw [heq, show byteSlice line e0 e0 = [] from
          sliceGo_empty_of_ge line 0 e0 e0 (Nat.le_refl e0)]
        simp [spansText, expandTabsSpec]
  | cons x A ih =>
    intro style start stack hstart hmem hsorted
    obtain ⟨b, e⟩ := x
    have hbe : start ≤ e ∧ e ≤ e0 := hmem (b, e) (by simp)
    have hmem' : ∀ x ∈ A, e ≤ x.2 ∧ x.2 ≤ e0 := by
      intro x hx
      exact ⟨(List.pairwise_cons.mp hsorted).1 x hx, (hmem x (by simp [hx])).2⟩
    have hsorted' : A.Pairwise (fun a b => a.2 ≤ b.2) :=
      (List.pairwise_cons.mp hsorted).2
    have hhead : spansText (if start < e then
        [⟨replace_tabs (byteSlice line start e) w, style⟩] else []) =
        expandTabsSpec w (byteSlice line start e) := by
      by_cases hse : start < e
      · simp [hse, spansText, replace_tabs_eq_expand _ w hw]
      · have heq : start = e := by omega
        rw [heq, show byteSlice line e e = [] from
          sliceGo_empty_of_ge line 0 e e (Nat.le_refl e)]
        simp [spansText, expandTabsSpec]
    have hglue : ∀ pre : List Span,
        spansText pre = expandTabsSpec w (byteSlice line e e0) →
        spansText ((if start < e then
          [⟨replace_tabs (byteSlice line start e) w, style⟩] else []) ++ pre) =
          expandTabsSpec w (byteSlice line start e0) := by
      intro pre hpre
      rw [spansText_append, hhead, hpre, ← expandTabsSpec_append,
        byteSlice_split line start e e0 hbe.1 hbe.2]
    cases b with
    | cursor s =>
      obtain ⟨pre, stack', heq, hpre⟩ := ih s e (style :: stack) hbe.2 hmem' hsorted'
      refine ⟨(if start < e then
        [⟨replace_tabs (byteSlice line start e) w, style⟩] else []) ++ pre,
        stack', ?_, hglue pre hpre⟩
      rw [show sweep line w sbeg cae cstyle
          (((Boundary.cursor s, e) :: A) ++ (b0, e0) :: B) style start stack =
          (if start < e then
            [⟨replace_tabs (byteSlice line start e) w, style⟩] else []) ++
            sweep line w sbeg cae cstyle (A ++ (b0, e0) :: B) s e
              (style :: stack) from rfl, heq, List.append_assoc]
    | search s =>
      obtain ⟨pre, stack', heq, hpre⟩ := ih s e (style :: stack) hbe.2 hmem' hsorted'
      refine ⟨(if start < e then
        [⟨replace_tabs (byteSlice line start e) w, style⟩] else []) ++ pre,
        stack', ?_, hglue pre hpre⟩
      rw [show sweep line w sbeg cae cstyle
          (((Boundary.search s, e) :: A) ++ (b0, e0) :: B) style start stack =
          (if start < e then
            [⟨replace_tabs (byteSlice line start e) w, style⟩] else []) ++
            sweep line w sbeg cae cstyle (A ++ (b0, e0) :: B) s e
              (style :: stack) from rfl, heq, List.append_assoc]
    | stop =>
      obtain ⟨pre, stack', heq, hpre⟩ :=
        ih (stack.headD sbeg) e stack.tail hbe.2 hmem' hsorted'
      refine ⟨(if start < e then
        [⟨replace_tabs (byteSlice line start e) w, style⟩] else []) ++ pre,
        stack', ?_, hglue pre hpre⟩
      rw [show sweep line w sbeg cae cstyle
          (((Boundary.stop, e) :: A) ++ (b0, e0) :: B) style start stack =
          (if start < e then
            [⟨replace_tabs (byteSlice line start e) w, style⟩] else []) ++
            sweep line w sbeg cae cstyle (A ++ (b0, e0) :: B)
              (stack.headD sbeg) e stack.tail from rfl, heq, List.append_assoc]

theorem searchPairs_not_cursor (st : Style) :
    ∀ (rs : List (Nat × Nat)), ∀ x ∈ searchPairs st rs,
      isCursorB x.1 = false := by
  intro rs
  induction rs with
  | nil => intro x hx; simp [searchPairs] at hx
  | cons p rest ih =>
    intro x hx
    obtain ⟨s, e⟩ := p
    simp only [searchPairs] at hx
    rcases List.mem_append.mp hx with hx1 | hx2
    · by_cases hse : s ≠ e
      · rw [if_pos hse] at hx1
        rcases List.mem_cons.mp hx1 with rfl | h1
        · rfl
        · have h2 := List.mem_singleton.mp h1
          subst h2
          rfl
      · rw [if_neg hse] at hx1
        simp at hx1
    · exact ih x hx2

/-- C2: when a byte offset lies both inside the cursor character's byte range
and inside a search-match range, the span of `into_spans` that covers it is
emitted with the cursor style (the cursor boundary sorts after all other
boundaries at its offset, so it is innermost): the output decomposes as
`pre ++ span ++ post` where the span starts exactly at the cursor
character's start, extends past the offset, carries the cursor style, and
`pre` covers exactly the line before the cursor character. -/
theorem into_spans_cursor_priority
    (line : List Char) (pres : List Span) (ranges : List (Nat × Nat))
    (cstyle sbase sstyle : Style) (w col o s e : Nat)
    (hw : 1 ≤ w) (hcol : col < line.length)
    (ho1 : utf8Len (line.take col) ≤ o)
    (ho2 : o < utf8Len (line.take (col + 1)))
    (hmem : (s, e) ∈ ranges) (hso : s ≤ o) (hoe : o < e)
    (hranges : ∀ p ∈ ranges, p.1 < p.2 ∧ p.2 ≤ utf8Len line ∧
      p.1 ∈ charBoundaries line ∧ p.2 ∈ charBoundaries line) :
    ∃ (pre post : List Span) (t : Nat),
      ((((LineHighlighter.new line cstyle w).push_spans pres).cursor_line col
          sbase).search ranges sstyle).into_spans =
        pre ++ ⟨replace_tabs (byteSlice line (utf8Len (line.take col)) t) w,
          cstyle⟩ :: post ∧
      o < t ∧
      spansText pre = spansText pres ++
        expandTabsSpec w (byteSlice line 0 (utf8Len (line.take col))) := by
  have hce : utf8Len (line.take col) + (line.get ⟨col, hcol⟩).utf8Size =
      utf8Len (line.take (col + 1)) := (utf8Len_take_succ line col hcol).symm
  have hcslt : utf8Len (line.take col) < utf8Len (line.take (col + 1)) := by
    omega
  have hcelen : utf8Len (line.take (col + 1)) ≤ utf8Len line :=
    utf8Len_take_le line (col + 1)
  rw [built_state line pres ranges cstyle sbase sstyle w col, dif_pos hcol]
  set bl := (Boundary.cursor cstyle, utf8Len (line.take col)) ::
    (Boundary.stop, utf8Len (line.take col) +
      (line.get ⟨col, hcol⟩).utf8Size) :: searchPairs sstyle ranges with hbl
  have hins : (⟨line, pres, bl, sbase, false, cstyle, w⟩ :
      LineHighlighter).into_spans = pres ++ sweep line w sbase false cstyle
        (bl.mergeSort boundaryLe) sbase 0 [] := by
    unfold LineHighlighter.into_spans
    rw [if_neg (by rw [hbl]; simp)]
  have hoff_bl : ∀ x ∈ bl, x.2 ∈ charBoundaries line := by
    intro x hx
    rw [hbl] at hx
    rcases List.mem_cons.mp hx with rfl | hx
    · simp only [charBoundaries, List.mem_map, List.mem_range]
      exact ⟨col, by omega, rfl⟩
    rcases List.mem_cons.mp hx with rfl | hx
    · simp only [charBoundaries, List.mem_map, List.mem_range]
      exact ⟨col + 1, by omega, hce.symm ▸ rfl⟩
    · obtain ⟨p, hp, hor⟩ := searchPairs_mem sstyle ranges x hx
      obtain ⟨_, _, hp1, hp2⟩ := hranges p hp
      rcases hor with h | h <;> rw [h]
      · exact hp1
      · exact hp2
  have hcb_mem : (Boundary.cursor cstyle, utf8Len (line.take col)) ∈
      bl.mergeSort boundaryLe :=
    (List.mergeSort_perm bl boundaryLe).mem_iff.mpr (by rw [hbl]; simp)
  obtain ⟨A, B, hAB⟩ := List.append_of_mem hcb_mem
  have hsorted := List.sorted_mergeSort boundaryLe_trans boundaryLe_total bl
  rw [hAB] at hsorted
  obtain ⟨hpA, hpCB, hcross⟩ := List.pairwise_append.mp hsorted
  obtain ⟨hB_le, hpB⟩ := List.pairwise_cons.mp hpCB
  have hA_bound : ∀ a ∈ A, a.2 ≤ utf8Len (line.take col) := by
    intro a ha
    exact boundaryLe_offset (hcross a ha _ (List.mem_cons_self _ _))
  have hpA_off : A.Pairwise (fun a b => a.2 ≤ b.2) :=
    hpA.imp (fun h => boundaryLe_offset h)
  have hcbB : (Boundary.cursor cstyle, utf8Len (line.take col)) ∉ B := by
    have hnot_tail : (Boundary.cursor cstyle, utf8Len (line.take col)) ∉
        (Boundary.stop, utf8Len (line.take col) +
          (line.get ⟨col, hcol⟩).utf8Size) :: searchPairs sstyle ranges := by
      intro hmem2
      rcases List.mem_cons.mp hmem2 with heq | hmem3
      · exact absurd heq (by simp)
      · have hfc := searchPairs_not_cursor sstyle ranges _ hmem3
        simp [isCursorB] at hfc
    have hc : List.Perm ((Boundary.cursor cstyle, utf8Len (line.take col)) ::
        (A ++ B)) bl := by
      have h1 : List.Perm ((Boundary.cursor cstyle,
          utf8Len (line.take col)) :: (A ++ B))
          (A ++ (Boundary.cursor cstyle, utf8Len (line.take col)) :: B) :=
        List.perm_middle.symm
      rw [← hAB] at h1
      exact h1.trans (List.mergeSort_perm bl boundaryLe)
    rw [hbl] at hc
    have hpermAB := hc.cons_inv
    intro hbB
    exact hnot_tail
      (hpermAB.mem_iff.mp (List.mem_append.mpr (Or.inr hbB)))
  have hBge : ∀ b ∈ B, utf8Len (line.take (col + 1)) ≤ b.2 := by
    intro b hb
    have hle := hB_le b hb
    simp only [boundaryLe, Bool.or_eq_true, Bool.and_eq_true,
      decide_eq_true_eq, Boundary.rank] at hle
    rcases hle with h | ⟨heq, hrank⟩
    · refine boundary_gap line col hcol b.2 ?_ h
      refine hoff_bl b ((List.mergeSort_perm bl boundaryLe).mem_iff.mp ?_)
      rw [hAB]
      exact List.mem_append.mpr (Or.inr (List.mem_cons_of_mem _ hb))
    · have hbc : isCursorB b.1 = true := rank_two_isCursor b.1 hrank
      have hbbl : b ∈ bl :=
        (List.mergeSort_perm bl boundaryLe).mem_iff.mp (by
          rw [hAB]
          exact List.mem_append.mpr (Or.inr (List.mem_cons_of_mem _ hb)))
      have hbeq : b = (Boundary.cursor cstyle, utf8Len (line.take col)) := by
        rw [hbl] at hbbl
        rcases List.mem_cons.mp hbbl with rfl | hbbl
        · rfl
        rcases List.mem_cons.mp hbbl with rfl | hbbl
        · simp [isCursorB] at hbc
        · have hfc := searchPairs_not_cursor sstyle ranges b hbbl
          rw [hfc] at hbc
          exact absurd hbc (by simp)
      exact absurd (hbeq ▸ hb) hcbB
  obtain ⟨pre0, stack', hsweepA, hpre0⟩ :=
    sweep_prefix line w sbase cstyle false (Boundary.cursor cstyle) cstyle rfl
      (utf8Len (line.take col)) B hw A sbase 0 []
      (Nat.zero_le _) (fun a ha => ⟨Nat.zero_le _, hA_bound a ha⟩) hpA_off
  cases B with
  | nil =>
    have hne : ¬ (utf8Len (line.take col) = utf8Len line) := by omega
    have hsw : sweep line w sbase false cstyle [] cstyle
        (utf8Len (line.take col)) stack' =
        [⟨replace_tabs (byteSlice line (utf8Len (line.take col))
          (utf8Len line)) w, cstyle⟩] := by
      simp [sweep, hne, sliceFrom]
    refine ⟨pres ++ pre0, [], utf8Len line, ?_, by omega, ?_⟩
    · rw [hins, hAB, hsweepA, hsw]
      simp [List.append_assoc]
    · rw [spansText_append, hpre0]
  | cons x Btl =>
    obtain ⟨b1, e1⟩ := x
    have he1 : utf8Len (line.take (col + 1)) ≤ e1 :=
      hBge (b1, e1) (List.mem_cons_self _ _)
    have hlt : utf8Len (line.take col) < e1 := by omega
    have hstep : ∃ post, sweep line w sbase false cstyle ((b1, e1) :: Btl)
        cstyle (utf8Len (line.take col)) stack' =
        ⟨replace_tabs (byteSlice line (utf8Len (line.take col)) e1) w,
          cstyle⟩ :: post := by
      cases b1 with
      | cursor s =>
        refine ⟨sweep line w sbase false cstyle Btl s e1 (cstyle :: stack'), ?_⟩
        rw [show sweep line w sbase false cstyle
            ((Boundary.cursor s, e1) :: Btl) cstyle
            (utf8Len (line.take col)) stack' =
            (if utf8Len (line.take col) < e1 then
              [⟨replace_tabs (byteSlice line (utf8Len (line.take col)) e1) w,
                cstyle⟩] else []) ++
              sweep line w sbase false cstyle Btl s e1 (cstyle :: stack')
            from rfl, if_pos hlt]
        rfl
      | search s =>
        refine ⟨sweep line w sbase false cstyle Btl s e1 (cstyle :: stack'), ?_⟩
        rw [show sweep line w sbase false cstyle
            ((Boundary.search s, e1) :: Btl) cstyle
            (utf8Len (line.take col)) stack' =
            (if utf8Len (line.take col) < e1 then
              [⟨replace_tabs (byteSlice line (utf8Len (line.take col)) e1) w,
                cstyle⟩] else []) ++
              sweep line w sbase false cstyle Btl s e1 (cstyle :: stack')
            from rfl, if_pos hlt]
        rfl
      | stop =>
        refine ⟨sweep line w sbase false cstyle Btl (stack'.headD sbase) e1
          stack'.tail, ?_⟩
        rw [show sweep line w sbase false cstyle
            ((Boundary.stop, e1) :: Btl) cstyle
            (utf8Len (line.take col)) stack' =
            (if utf8Len (line.take col) < e1 then
              [⟨replace_tabs (byteSlice line (utf8Len (line.take col)) e1) w,
                cstyle⟩] else []) ++
              sweep line w sbase false cstyle Btl (stack'.headD sbase) e1
                stack'.tail from rfl, if_pos hlt]
        rfl
    obtain ⟨post, hstep⟩ := hstep
    refine ⟨pres ++ pre0, post, e1, ?_, by omega, ?_⟩
    · rw [hins, hAB, hsweepA, hstep]
      simp [List.append_assoc]
    · rw [spansText_append, hpre0]

theorem into_spans_cursor_priority_witness :
    ∃ (pre post : List Span) (t : Nat),
      ((((LineHighlighter.new ('a' :: 'b' :: 'c' :: []) 5 1).push_spans
          []).cursor_line 1 6).search [(1, 2)] 7).into_spans =
        pre ++ ⟨replace_tabs (byteSlice ('a' :: 'b' :: 'c' :: [])
          (utf8Len (('a' :: 'b' :: 'c' :: []).take 1)) t) 1, 5⟩ :: post ∧
      1 < t ∧
      spansText pre = spansText [] ++ expandTabsSpec 1
        (byteSlice ('a' :: 'b' :: 'c' :: []) 0
          (utf8Len (('a' :: 'b' :: 'c' :: []).take 1))) :=
  into_spans_cursor_priority ('a' :: 'b' :: 'c' :: []) [] [(1, 2)] 5 6 7 1 1 1
    1 2 (by decide) (by decide) (by decide) (by decide) (by decide) (by decide)
    (by decide) (by decide)
